import Mathlib

/-!
Verification of the search-engine core (crawler, store, PageRank, ranker,
LRU+TTL query cache) against its specification.

The Python modules are shallowly embedded: dictionaries become association
lists, SQLite tables become lists of row structures, floating-point scores
become rationals (`ℚ`), `time.time()` becomes an explicit `now : ℚ`
argument, and operations that can raise (`StopIteration` from drawing the
oldest key of an empty `OrderedDict`) return `Except`.  `math.log` is kept
abstract as a parameter `lg : ℚ → ℚ`, since both the code and the spec
apply the same logarithm to the same argument.
-/

namespace SearchCore

/-! ## LRU + TTL cache (`Lab4/cache.py`, class `LRUCache`)

The Python object keeps an `OrderedDict` `cache` plus a parallel dict
`timestamps`; the two are mutated in lockstep, so the embedding stores one
ordered list of `(key, value, insertedAt)` triples, oldest (least recently
used) first.  Hit/miss/eviction counters are carried verbatim. -/

structure LRUCache (α : Type) where
  capacity : Nat
  ttl : ℚ
  entries : List (String × α × ℚ)
  hits : Nat
  misses : Nat
  evictions : Nat

/-- `LRUCache.__init__(capacity, ttl)`: empty storage, zeroed counters. -/
def LRUCache.init (α : Type) (capacity : Nat) (ttl : ℚ) : LRUCache α :=
  ⟨capacity, ttl, [], 0, 0, 0⟩

/-- `key in self.cache`. -/
def LRUCache.containsKey {α : Type} (st : LRUCache α) (key : String) : Bool :=
  st.entries.any (fun e => e.1 == key)

/-- `LRUCache.get(key)`, with the wall clock passed explicitly.
Absent key: count a miss.  Expired (`now - insertedAt > ttl`): delete the
entry from both dicts and count a miss.  Otherwise `move_to_end`, count a
hit and return the value. -/
def LRUCache.get {α : Type} (st : LRUCache α) (key : String) (now : ℚ) :
    Option α × LRUCache α :=
  match st.entries.find? (fun e => e.1 == key) with
  | none => (none, { st with misses := st.misses + 1 })
  | some e =>
    if st.ttl < now - e.2.2 then
      (none, { st with entries := st.entries.filter (fun x => x.1 != key),
                       misses := st.misses + 1 })
    else
      (some e.2.1, { st with entries := st.entries.filter (fun x => x.1 != key) ++ [e],
                             hits := st.hits + 1 })

/-- `LRUCache.put(key, value)`.  An existing key is moved to the end and
overwritten (no eviction counted).  A new key at capacity first evicts
`next(iter(self.cache))`, the oldest entry; on an empty dict that raises
`StopIteration`, modelled as `Except.error`.  The new entry is appended at
the most-recently-used end with a fresh timestamp. -/
def LRUCache.put {α : Type} (st : LRUCache α) (key : String) (value : α) (now : ℚ) :
    Except Unit (LRUCache α) :=
  if st.containsKey key then
    Except.ok { st with entries := st.entries.filter (fun x => x.1 != key) ++ [(key, value, now)] }
  else
    if st.capacity ≤ st.entries.length then
      match st.entries with
      | [] => Except.error ()
      | _ :: rest =>
        Except.ok { st with entries := rest ++ [(key, value, now)],
                            evictions := st.evictions + 1 }
    else
      Except.ok { st with entries := st.entries ++ [(key, value, now)] }

/-- `LRUCache.clear()`. -/
def LRUCache.clear {α : Type} (st : LRUCache α) : LRUCache α :=
  { st with entries := [] }

/-- Character-list version of Python's `str.startswith`. -/
def charPre : List Char → List Char → Bool
  | [], _ => true
  | _ :: _, [] => false
  | a :: as, b :: bs => a == b && charPre as bs

/-- Python `s.startswith(p)` on strings. -/
def strStarts (p s : String) : Bool := charPre p.data s.data

/-- Python `str.lower()` (character-wise lowering, kept kernel-reducible). -/
def pyLower (s : String) : String := ⟨s.data.map Char.toLower⟩

/-- Python `str.strip()`: drop leading and trailing whitespace. -/
def pyStrip (s : String) : String :=
  ⟨((s.data.dropWhile Char.isWhitespace).reverse.dropWhile Char.isWhitespace).reverse⟩

/-- `QueryCache._make_key` normalization: `query.lower().strip()`. -/
def normalizeQuery (q : String) : String := pyStrip (pyLower q)

/-- `QueryCache._make_key(query, page, per_page)`:
`f"{normalized_query}:{page}:{per_page}"`. -/
def makeKey (q : String) (page per : Nat) : String :=
  normalizeQuery q ++ ":" ++ toString page ++ ":" ++ toString per

/-- `QueryCache.invalidate(query?)` acting on the wrapped `LRUCache`.
With no argument, `clear()`.  With a query, delete every key that starts
with the normalized query followed by `":"` (from both dicts). -/
def queryInvalidate {α : Type} (st : LRUCache α) (q : Option String) : LRUCache α :=
  match q with
  | none => st.clear
  | some query =>
    { st with entries :=
        st.entries.filter (fun e => !(strStarts (normalizeQuery query ++ ":") e.1)) }

/-- States reachable through the public cache interface: a fresh cache
followed by any sequence of `get`, successful `put` (a raising `put`
leaves the Python object unchanged), `clear`, and `invalidate`. -/
inductive CacheReachable {α : Type} : LRUCache α → Prop where
  | init : ∀ c t, CacheReachable (LRUCache.init α c t)
  | step_get : ∀ st key now, CacheReachable st → CacheReachable (st.get key now).2
  | step_put : ∀ st key v now st', CacheReachable st →
      st.put key v now = Except.ok st' → CacheReachable st'
  | step_clear : ∀ st, CacheReachable st → CacheReachable st.clear
  | step_invalidate : ∀ st q, CacheReachable st → CacheReachable (queryInvalidate st q)

/-! Helper lemmas about keyed lookup in lists with no duplicate keys. -/

theorem find?_key_eq_none {α : Type} (l : List (String × α × ℚ)) (key : String)
    (h : ∀ e ∈ l, e.1 ≠ key) : l.find? (fun e => e.1 == key) = none := by
  rw [List.find?_eq_none]
  intro e he
  simpa using h e he

theorem find?_key_of_mem {α : Type} (l : List (String × α × ℚ)) (key : String) (v : α) (ts : ℚ)
    (hnd : (l.map Prod.fst).Nodup) (hmem : (key, v, ts) ∈ l) :
    l.find? (fun e => e.1 == key) = some (key, v, ts) := by
  induction l with
  | nil => cases hmem
  | cons a l ih =>
    rw [List.map_cons, List.nodup_cons] at hnd
    rcases List.mem_cons.mp hmem with h | h
    · subst h
      simp [List.find?_cons]
    · have hkey : a.1 ≠ key := by
        intro hk
        exact hnd.1 (List.mem_map.mpr ⟨(key, v, ts), h, by simp [hk]⟩)
      have hb : (a.1 == key) = false := by simpa using hkey
      simp [List.find?_cons, hb, ih hnd.2 h]

theorem filter_key_length_lt {α : Type} (l : List (String × α × ℚ)) (key : String)
    (hmem : ∃ e ∈ l, e.1 = key) :
    (l.filter (fun x => x.1 != key)).length < l.length := by
  induction l with
  | nil => simp at hmem
  | cons a l ih =>
    rcases hmem with ⟨e, he, hk⟩
    rw [List.filter_cons]
    rcases List.mem_cons.mp he with h | h
    · subst h
      have hle : (l.filter (fun x => x.1 != key)).length ≤ l.length :=
        List.length_filter_le _ _
      simp only [hk, bne_self_eq_false, cond_false, List.length_cons]
      simpa using Nat.lt_succ_of_le hle
    · by_cases ha : a.1 = key
      · have hle : (l.filter (fun x => x.1 != key)).length ≤ l.length :=
          List.length_filter_le _ _
        simp only [ha, bne_self_eq_false, cond_false, List.length_cons]
        simpa using Nat.lt_succ_of_le hle
      · have hlt := ih ⟨e, h, hk⟩
        have hab : (a.1 != key) = true := by simpa using ha
        simp only [hab, if_true, List.length_cons]
        omega

theorem filter_key_length_eq {α : Type} (l : List (String × α × ℚ)) (key : String) (v : α) (ts : ℚ)
    (hnd : (l.map Prod.fst).Nodup) (hmem : (key, v, ts) ∈ l) :
    (l.filter (fun x => x.1 != key)).length + 1 = l.length := by
  induction l with
  | nil => cases hmem
  | cons a l ih =>
    rw [List.map_cons, List.nodup_cons] at hnd
    rw [List.filter_cons]
    rcases List.mem_cons.mp hmem with h | h
    · subst h
      have hself : l.filter (fun x => x.1 != key) = l := by
        apply List.filter_eq_self.mpr
        intro x hx
        have hxk : x.1 ≠ key := by
          intro hk
          exact hnd.1 (List.mem_map.mpr ⟨x, hx, by simp [hk]⟩)
        simpa using hxk
      simp [hself]
    · have ha : a.1 ≠ key := by
        intro hk
        exact hnd.1 (List.mem_map.mpr ⟨(key, v, ts), h, by simp [hk]⟩)
      have hab : (a.1 != key) = true := by simpa using ha
      have := ih hnd.2 h
      simp only [hab, if_true, List.length_cons]
      omega


theorem charPre_self_append : ∀ (l r : List Char), charPre l (l ++ r) = true := by
  intro l
  induction l with
  | nil => intro r; rfl
  | cons c cs ih => intro r; simp [charPre, ih r]

/-- The cache-size invariant: every state reachable through the public
interface holds at most `capacity` entries. -/
theorem reachable_size_le {α : Type} (st : LRUCache α) (h : CacheReachable st) :
    st.entries.length ≤ st.capacity := by
  induction h with
  | init c t => simp [LRUCache.init]
  | step_get st key now _ ih =>
    unfold LRUCache.get
    cases hf : st.entries.find? (fun e => e.1 == key) with
    | none => simpa using ih
    | some e =>
      have hmem := List.mem_of_find?_eq_some hf
      have hkey : e.1 = key := by simpa using List.find?_some hf
      have hlt := filter_key_length_lt st.entries key ⟨e, hmem, hkey⟩
      by_cases hexp : st.ttl < now - e.2.2
      · simp only [hexp, if_true]
        have := List.length_filter_le (fun x => x.1 != key) st.entries
        simpa using le_trans this ih
      · simp only [hexp, if_false]
        simp only [List.length_append, List.length_cons, List.length_nil]
        omega
  | step_put st key v now st' _ hput ih =>
    unfold LRUCache.put at hput
    by_cases hc : st.containsKey key
    · rw [if_pos hc] at hput
      have hex : ∃ e ∈ st.entries, e.1 = key := by
        rcases List.any_eq_true.mp hc with ⟨e, he, hk⟩
        exact ⟨e, he, by simpa using hk⟩
      have hlt := filter_key_length_lt st.entries key hex
      cases hput
      simp only [List.length_append, List.length_cons, List.length_nil]
      omega
    · rw [if_neg hc] at hput
      by_cases hlen : st.capacity ≤ st.entries.length
      · rw [if_pos hlen] at hput
        cases hent : st.entries with
        | nil => rw [hent] at hput; cases hput
        | cons e rest =>
          rw [hent] at hput
          cases hput
          rw [hent] at ih
          simp only [List.length_append, List.length_cons, List.length_nil] at *
          omega
      · rw [if_neg hlen] at hput
        cases hput
        simp only [List.length_append, List.length_cons, List.length_nil]
        omega
  | step_clear st _ _ => simp [LRUCache.clear]
  | step_invalidate st q _ ih =>
    cases q with
    | none => simp [queryInvalidate, LRUCache.clear]
    | some query =>
      simp only [queryInvalidate]
      exact le_trans (List.length_filter_le _ _) ih

/-- Claim C5: `put` of an existing key overwrites it and refreshes it to the
most-recently-used (last) position with a fresh timestamp, leaving the
eviction counter and the cache size unchanged; `put` of a new key when the
cache is at capacity succeeds by evicting the strictly least-recently-used
entry (the head of the recency order), incrementing the eviction counter,
and appending the new key at the most-recently-used end; and in every
reachable cache state the number of entries never exceeds the configured
capacity. -/
theorem put_lru_behaviour {α : Type} (st : LRUCache α) (key : String) (v : α) (now : ℚ)
    (hnd : (st.entries.map Prod.fst).Nodup) :
    (∀ w ts, (key, w, ts) ∈ st.entries →
      st.put key v now = Except.ok
        { st with entries := st.entries.filter (fun x => x.1 != key) ++ [(key, v, now)] } ∧
      (st.entries.filter (fun x => x.1 != key) ++ [(key, v, now)]).length
        = st.entries.length) ∧
    (st.containsKey key = false → st.entries.length = st.capacity → 1 ≤ st.capacity →
      ∃ lru rest, st.entries = lru :: rest ∧
        st.put key v now = Except.ok
          { st with entries := rest ++ [(key, v, now)],
                    evictions := st.evictions + 1 }) ∧
    (∀ st' : LRUCache α, CacheReachable st' → st'.entries.length ≤ st'.capacity) := by
  refine ⟨?_, ?_, fun st' h => reachable_size_le st' h⟩
  · intro w ts hmem
    have hc : st.containsKey key = true :=
      List.any_eq_true.mpr ⟨(key, w, ts), hmem, by simp⟩
    constructor
    · unfold LRUCache.put
      rw [if_pos hc]
    · have := filter_key_length_eq st.entries key w ts hnd hmem
      simp only [List.length_append, List.length_cons, List.length_nil]
      omega
  · intro hc hlen hcap
    cases hent : st.entries with
    | nil => rw [hent] at hlen; simp at hlen; omega
    | cons e rest =>
      refine ⟨e, rest, rfl, ?_⟩
      unfold LRUCache.put
      rw [if_neg (by simp [hc]), if_pos (le_of_eq hlen.symm), hent]

theorem put_lru_behaviour_witness :
    ((([("a", 1, 0), ("b", 2, 1)] : List (String × Nat × ℚ)).map Prod.fst).Nodup) ∧
    (⟨2, 10, [("a", 1, 0), ("b", 2, 1)], 0, 0, 0⟩ : LRUCache Nat).put "c" 7 5
      = Except.ok ⟨2, 10, [("b", 2, 1), ("c", 7, 5)], 0, 0, 1⟩ := by
  constructor
  · decide
  · have h := (put_lru_behaviour
      (⟨2, 10, [("a", 1, 0), ("b", 2, 1)], 0, 0, 0⟩ : LRUCache Nat) "c" 7 5
      (by decide)).2.1 (by decide) (by decide) (by decide)
    rcases h with ⟨lru, rest, hsplit, hput⟩
    injection hsplit with h1 h2
    subst h1
    subst h2
    simpa using hput

/-- Claim C10: for a cache of capacity at least 1, `put` always succeeds
(the eviction branch only runs when the cache holds at least one entry);
for a cache of capacity 0, a `put` of an absent key reaches the eviction
step on an empty cache and raises (`StopIteration` from
`next(iter(self.cache))`) instead of inserting. -/
theorem put_totality {α : Type} (st : LRUCache α) (key : String) (v : α) (now : ℚ) :
    (1 ≤ st.capacity → ∃ st', st.put key v now = Except.ok st') ∧
    (st.capacity = 0 → st.entries = [] → st.put key v now = Except.error ()) := by
  constructor
  · intro hcap
    unfold LRUCache.put
    by_cases hc : st.containsKey key
    · exact ⟨_, by rw [if_pos hc]⟩
    · rw [if_neg hc]
      by_cases hlen : st.capacity ≤ st.entries.length
      · rw [if_pos hlen]
        cases hent : st.entries with
        | nil =>
          rw [hent] at hlen
          simp at hlen
          omega
        | cons e rest => exact ⟨_, rfl⟩
      · rw [if_neg hlen]
        exact ⟨_, rfl⟩
  · intro h0 hent
    have hc : st.containsKey key = false := by
      simp [LRUCache.containsKey, hent]
    unfold LRUCache.put
    rw [if_neg (by simp [hc]), if_pos (by omega), hent]

theorem put_totality_witness :
    (∃ st', (LRUCache.init Nat 1 10).put "k" 5 0 = Except.ok st') ∧
    (LRUCache.init Nat 0 10).put "k" 5 0 = Except.error () :=
  ⟨(put_totality (LRUCache.init Nat 1 10) "k" 5 0).1 (by decide),
   (put_totality (LRUCache.init Nat 0 10) "k" 5 0).2 rfl rfl⟩

/-- Claim C6: `get` misses when the key is absent, or purges the entry and
misses when its age `now - insertedAt` strictly exceeds the TTL; otherwise
it moves the entry to the most-recently-used position and counts a hit.
Whenever `get` returns a value, the returned entry was stored and not
expired, so an expired entry is never returned as a hit. -/
theorem get_ttl_behaviour {α : Type} (st : LRUCache α) (key : String) (now : ℚ)
    (hnd : (st.entries.map Prod.fst).Nodup) :
    ((∀ e ∈ st.entries, e.1 ≠ key) →
      st.get key now = (none, { st with misses := st.misses + 1 })) ∧
    (∀ v ts, (key, v, ts) ∈ st.entries → st.ttl < now - ts →
      st.get key now = (none, { st with entries := st.entries.filter (fun x => x.1 != key),
                                        misses := st.misses + 1 }) ∧
      ∀ x ∈ (st.get key now).2.entries, x.1 ≠ key) ∧
    (∀ v ts, (key, v, ts) ∈ st.entries → now - ts ≤ st.ttl →
      st.get key now = (some v,
        { st with entries := st.entries.filter (fun x => x.1 != key) ++ [(key, v, ts)],
                  hits := st.hits + 1 })) ∧
    (∀ v st', st.get key now = (some v, st') →
      ∃ ts, (key, v, ts) ∈ st.entries ∧ now - ts ≤ st.ttl) := by
  refine ⟨?_, ?_, ?_, ?_⟩
  · intro habs
    unfold LRUCache.get
    rw [find?_key_eq_none st.entries key habs]
  · intro v ts hmem hexp
    have hfind := find?_key_of_mem st.entries key v ts hnd hmem
    have hget : st.get key now =
        (none, { st with entries := st.entries.filter (fun x => x.1 != key),
                         misses := st.misses + 1 }) := by
      unfold LRUCache.get
      rw [hfind]
      simp only [hexp, if_true]
    refine ⟨hget, ?_⟩
    rw [hget]
    intro x hx
    have := List.of_mem_filter hx
    simpa using this
  · intro v ts hmem hfresh
    have hfind := find?_key_of_mem st.entries key v ts hnd hmem
    unfold LRUCache.get
    rw [hfind]
    simp only [not_lt.mpr hfresh, if_false]
  · intro v st' hget
    unfold LRUCache.get at hget
    cases hfind : st.entries.find? (fun e => e.1 == key) with
    | none => rw [hfind] at hget; cases hget
    | some e =>
      rw [hfind] at hget
      dsimp only at hget
      by_cases hexp : st.ttl < now - e.2.2
      · rw [if_pos hexp] at hget
        cases hget
      · rw [if_neg hexp] at hget
        have hkey : e.1 = key := by simpa using List.find?_some hfind
        have hmem := List.mem_of_find?_eq_some hfind
        injection hget with h1 h2
        injection h1 with hv
        refine ⟨e.2.2, ?_, not_lt.mp hexp⟩
        have : e = (key, v, e.2.2) := by
          rcases e with ⟨k, w, ts⟩
          simp only at hkey hv
          rw [hkey, hv]
        rw [← this]
        exact hmem

theorem get_ttl_behaviour_witness :
    ((([("a", 5, 0)] : List (String × Nat × ℚ)).map Prod.fst).Nodup) ∧
    (⟨2, 10, [("a", 5, 0)], 0, 0, 0⟩ : LRUCache Nat).get "a" 3
      = (some 5, ⟨2, 10, [("a", 5, 0)], 1, 0, 0⟩) := by
  refine ⟨by decide, ?_⟩
  have h := (get_ttl_behaviour (⟨2, 10, [("a", 5, 0)], 0, 0, 0⟩ : LRUCache Nat) "a" 3
    (by decide)).2.2.1 5 0 (by decide) (by norm_num)
  simpa using h

/-- Claim C7 counterexample: the entry cached for the distinct normalized
query `"a:1"` (page 2, page size 5) is removed by `invalidate("a")`,
because its key `"a:1:2:5"` starts with `"a:"`; so invalidation is not
confined to the invalidated query's own pages. -/
theorem invalidate_counterexample :
    normalizeQuery "a:1" ≠ normalizeQuery "a" ∧
    (queryInvalidate
        (⟨5, 10, [(makeKey "a:1" 2 5, (0 : Nat), 0)], 0, 0, 0⟩ : LRUCache Nat)
        (some "a")).entries = [] := by
  constructor
  · decide
  · rfl

theorem makeKey_data (q : String) (page per : Nat) :
    (makeKey q page per).data
      = (normalizeQuery q ++ ":").data ++ (toString page ++ ":" ++ toString per).data := by
  simp [makeKey, String.data_append, List.append_assoc]

theorem strStarts_makeKey (q : String) (page per : Nat) :
    strStarts (normalizeQuery q ++ ":") (makeKey q page per) = true := by
  rw [strStarts, makeKey_data]
  exact charPre_self_append _ _

/-- Claim C7 (amended): `invalidate()` with no argument clears the whole
cache; `invalidate(query)` removes exactly the entries whose key starts
with the normalized query followed by `":"` — in particular every cached
page (page-number/page-size combination) of that query is removed — and
every entry whose key does not start with that prefix survives unchanged,
so a different normalized query is untouched unless its key happens to
extend the invalidated one by a `":"`. -/
theorem invalidate_behaviour {α : Type} (st : LRUCache α) (q : String) :
    (queryInvalidate st none).entries = [] ∧
    (queryInvalidate st (some q)).entries
      = st.entries.filter (fun e => !(strStarts (normalizeQuery q ++ ":") e.1)) ∧
    (∀ page per (v : α) ts,
      (makeKey q page per, v, ts) ∉ (queryInvalidate st (some q)).entries) ∧
    (∀ e ∈ st.entries, strStarts (normalizeQuery q ++ ":") e.1 = false →
      e ∈ (queryInvalidate st (some q)).entries) := by
  refine ⟨rfl, rfl, ?_, ?_⟩
  · intro page per v ts hmem
    have hpred := List.of_mem_filter hmem
    rw [strStarts_makeKey q page per] at hpred
    simp at hpred
  · intro e he hpref
    apply List.mem_filter.mpr
    exact ⟨he, by simp [hpref]⟩

theorem invalidate_behaviour_witness :
    ((makeKey "b" 1 5, (3 : Nat), (0 : ℚ))
        ∈ (queryInvalidate
            (⟨5, 10, [(makeKey "b" 1 5, (3 : Nat), 0)], 0, 0, 0⟩ : LRUCache Nat)
            (some "a")).entries) ∧
    (makeKey "a" 1 5, (3 : Nat), (0 : ℚ))
        ∉ (queryInvalidate
            (⟨5, 10, [(makeKey "a" 1 5, (3 : Nat), 0)], 0, 0, 0⟩ : LRUCache Nat)
            (some "a")).entries := by
  constructor
  · exact (invalidate_behaviour
      (⟨5, 10, [(makeKey "b" 1 5, (3 : Nat), 0)], 0, 0, 0⟩ : LRUCache Nat) "a").2.2.2
      (makeKey "b" 1 5, (3 : Nat), (0 : ℚ)) (by decide) (by decide)
  · exact (invalidate_behaviour
      (⟨5, 10, [(makeKey "a" 1 5, (3 : Nat), 0)], 0, 0, 0⟩ : LRUCache Nat) "a").2.2.1 1 5 3 0


/-! ## Persistent store upserts (`Lab3/storage.py`, class `SearchEngineDB`)

`Lexicon` has `word_id INTEGER PRIMARY KEY AUTOINCREMENT, word TEXT
UNIQUE`; `DocumentIndex` has `doc_id`, `url TEXT UNIQUE`, `title`,
`page_rank REAL DEFAULT 1.0`.  `insert_word`/`insert_document` try an
`INSERT`; a uniqueness `IntegrityError` is answered by a `SELECT` of the
existing row's id.  Tables are embedded as row lists in insertion order
plus the autoincrement counter. -/

structure Lexicon where
  rows : List (Nat × String)
  nextId : Nat

/-- `SearchEngineDB.insert_word`: insert-or-lookup on the unique `word`
column, returning the (fresh or existing) `word_id`. -/
def insert_word (st : Lexicon) (w : String) : Nat × Lexicon :=
  match st.rows.find? (fun r => r.2 == w) with
  | some r => (r.1, st)
  | none => (st.nextId, ⟨st.rows ++ [(st.nextId, w)], st.nextId + 1⟩)

structure DocIndex where
  rows : List (Nat × String × String × ℚ)
  nextId : Nat

/-- `SearchEngineDB.insert_document`: insert-or-lookup on the unique `url`
column; a fresh row carries the given title and the schema's default
`page_rank` of `1.0`. -/
def insert_document (st : DocIndex) (url : String) (title : String) : Nat × DocIndex :=
  match st.rows.find? (fun r => r.2.1 == url) with
  | some r => (r.1, st)
  | none => (st.nextId, ⟨st.rows ++ [(st.nextId, url, title, 1)], st.nextId + 1⟩)

theorem find?_append_of_none {β : Type} (p : β → Bool) (l : List β) (x : β)
    (h : l.find? p = none) (hx : p x = true) : (l ++ [x]).find? p = some x := by
  induction l with
  | nil => simp [List.find?, hx]
  | cons a l ih =>
    rw [List.find?_cons] at h
    cases hpa : p a with
    | true => rw [hpa] at h; cases h
    | false =>
      rw [hpa] at h
      rw [List.cons_append, List.find?_cons, hpa]
      exact ih h

theorem filter_length_one_of_nodup {β γ : Type} [DecidableEq γ] (l : List β) (f : β → γ)
    (c : γ) (x : β) (hnd : (l.map f).Nodup) (hx : x ∈ l) (hfx : f x = c) :
    (l.filter (fun r => f r == c)).length = 1 := by
  induction l with
  | nil => cases hx
  | cons a l ih =>
    rw [List.map_cons, List.nodup_cons] at hnd
    rw [List.filter_cons]
    rcases List.mem_cons.mp hx with h | h
    · subst h
      have hrest : l.filter (fun r => f r == c) = [] := by
        apply List.filter_eq_nil.mpr
        intro b hb
        have hbc : f b ≠ c := by
          intro hbc
          exact hnd.1 (List.mem_map.mpr ⟨b, hb, by rw [hbc, hfx]⟩)
        simpa using hbc
      simp [hfx, hrest]
    · have ha : f a ≠ c := by
        intro hac
        exact hnd.1 (List.mem_map.mpr ⟨x, h, by rw [hfx, hac]⟩)
      have hab : (f a == c) = false := by simpa using ha
      simp only [hab, if_false, Bool.false_eq_true]
      exact ih hnd.2 h

/-- Claim C9: inserting the same word, or the same document URL, twice
returns the same identity both times, leaves the store exactly as after
the first insert, and leaves exactly one row for that word/URL — the
duplicate insert is resolved by lookup, never by an error or a duplicate
row. -/
theorem upsert_idempotent (lex : Lexicon) (w : String) (docs : DocIndex)
    (url title title' : String)
    (hlex : (lex.rows.map Prod.snd).Nodup)
    (hdocs : (docs.rows.map (fun r => r.2.1)).Nodup) :
    ((insert_word (insert_word lex w).2 w).1 = (insert_word lex w).1 ∧
     (insert_word (insert_word lex w).2 w).2 = (insert_word lex w).2 ∧
     ((insert_word lex w).2.rows.filter (fun r => r.2 == w)).length = 1) ∧
    ((insert_document (insert_document docs url title).2 url title').1
        = (insert_document docs url title).1 ∧
     (insert_document (insert_document docs url title).2 url title').2
        = (insert_document docs url title).2 ∧
     ((insert_document docs url title).2.rows.filter (fun r => r.2.1 == url)).length = 1) := by
  constructor
  · cases hfind : lex.rows.find? (fun r => r.2 == w) with
    | some r =>
      have hr := List.find?_some hfind
      have hmem := List.mem_of_find?_eq_some hfind
      have h1 : insert_word lex w = (r.1, lex) := by
        unfold insert_word
        rw [hfind]
      rw [h1]
      have hcount := filter_length_one_of_nodup lex.rows Prod.snd w r hlex hmem
        (by simpa using hr)
      refine ⟨?_, ?_, ?_⟩
      · unfold insert_word
        rw [hfind]
      · unfold insert_word
        rw [hfind]
      · simpa using hcount
    | none =>
      have h1 : insert_word lex w
          = (lex.nextId, ⟨lex.rows ++ [(lex.nextId, w)], lex.nextId + 1⟩) := by
        unfold insert_word
        rw [hfind]
      have hfind2 : (lex.rows ++ [(lex.nextId, w)]).find? (fun r => r.2 == w)
          = some (lex.nextId, w) :=
        find?_append_of_none _ lex.rows (lex.nextId, w) hfind (by simp)
      rw [h1]
      refine ⟨?_, ?_, ?_⟩
      · unfold insert_word
        rw [hfind2]
      · unfold insert_word
        rw [hfind2]
      · have hnil : lex.rows.filter (fun r => r.2 == w) = [] := by
          apply List.filter_eq_nil.mpr
          intro b hb
          have := List.find?_eq_none.mp hfind b hb
          simpa using this
        simp [List.filter_append, hnil]
  · cases hfind : docs.rows.find? (fun r => r.2.1 == url) with
    | some r =>
      have hr := List.find?_some hfind
      have hmem := List.mem_of_find?_eq_some hfind
      have h1 : insert_document docs url title = (r.1, docs) := by
        unfold insert_document
        rw [hfind]
      rw [h1]
      have hcount := filter_length_one_of_nodup docs.rows (fun r => r.2.1) url r hdocs hmem
        (by simpa using hr)
      refine ⟨?_, ?_, ?_⟩
      · unfold insert_document
        rw [hfind]
      · unfold insert_document
        rw [hfind]
      · simpa using hcount
    | none =>
      have h1 : insert_document docs url title
          = (docs.nextId, ⟨docs.rows ++ [(docs.nextId, url, title, 1)], docs.nextId + 1⟩) := by
        unfold insert_document
        rw [hfind]
      have hfind2 : (docs.rows ++ [(docs.nextId, url, title, 1)]).find?
            (fun r => r.2.1 == url)
          = some (docs.nextId, url, title, 1) :=
        find?_append_of_none _ docs.rows (docs.nextId, url, title, 1) hfind (by simp)
      rw [h1]
      refine ⟨?_, ?_, ?_⟩
      · unfold insert_document
        rw [hfind2]
      · unfold insert_document
        rw [hfind2]
      · have hnil : docs.rows.filter (fun r => r.2.1 == url) = [] := by
          apply List.filter_eq_nil.mpr
          intro b hb
          have := List.find?_eq_none.mp hfind b hb
          simpa using this
        simp [List.filter_append, hnil]

theorem upsert_idempotent_witness :
    (insert_word (insert_word ⟨[(1, "python")], 2⟩ "web").2 "web").1
        = (insert_word ⟨[(1, "python")], 2⟩ "web").1 ∧
    ((insert_document ⟨[], 1⟩ "http://x" "T").2.rows.filter
        (fun r => r.2.1 == "http://x")).length = 1 := by
  have h := upsert_idempotent ⟨[(1, "python")], 2⟩ "web" ⟨[], 1⟩ "http://x" "T" "T2"
    (by decide) (by decide)
  exact ⟨h.1.1, h.2.2.2⟩

/-! ## Crawler run loop (`Lab4/crawler.py`, `Crawler.crawl`)

The crawl loop pops `(url, depth)` pairs off the END of `_url_queue`
(Python `list.pop()`), skips entries beyond the depth bound, resolves the
URL to its canonical document identity (`document_id`, the upsert on the
canonicalized URL — abstracted here as a function `ident : String → Nat`,
so the theorem holds for every possible canonicalization), skips
identities already in `seen`, adds the identity to `seen` *before*
fetching, and on a successful fetch indexes the page and appends its link
targets at `depth + 1` to the queue.  A failed fetch (`fetch url = none`)
indexes nothing but leaves the identity marked as seen.  The loop is run
on explicit fuel; the claims hold for every fuel value. -/

structure CrawlState where
  queue : List (String × Nat)
  seen : List Nat
  indexed : List Nat

/-- `Crawler.crawl(depth)`: one run of the while-loop with `fuel`
iterations (the real loop runs until the queue empties; every claim below
is proved for every fuel, hence for the actual run length). -/
def crawl (fetch : String → Option (List String)) (ident : String → Nat)
    (depthBound : Nat) : Nat → CrawlState → CrawlState
  | 0, st => st
  | fuel + 1, st =>
    match st.queue.getLast? with
    | none => st
    | some (url, d) =>
      let rest := st.queue.dropLast
      if depthBound < d then
        crawl fetch ident depthBound fuel { st with queue := rest }
      else
        let i := ident url
        if i ∈ st.seen then
          crawl fetch ident depthBound fuel { st with queue := rest }
        else
          match fetch url with
          | none =>
            crawl fetch ident depthBound fuel
              { queue := rest, seen := i :: st.seen, indexed := st.indexed }
          | some links =>
            crawl fetch ident depthBound fuel
              { queue := rest ++ links.map (fun u => (u, d + 1)),
                seen := i :: st.seen,
                indexed := st.indexed ++ [i] }

/-- The seed queue built by `Crawler.__init__` from a URL file: one
`(url, 0)` entry per line, in file order. -/
def initialCrawlState (seeds : List String) : CrawlState :=
  ⟨seeds.map (fun u => (u, 0)), [], []⟩

theorem crawl_invariant (fetch : String → Option (List String)) (ident : String → Nat)
    (depthBound : Nat) : ∀ (fuel : Nat) (st : CrawlState),
    st.indexed.Nodup → (∀ x ∈ st.indexed, x ∈ st.seen) →
    (crawl fetch ident depthBound fuel st).indexed.Nodup ∧
    (∀ x ∈ (crawl fetch ident depthBound fuel st).indexed,
       x ∈ (crawl fetch ident depthBound fuel st).seen) := by
  intro fuel
  induction fuel with
  | zero => intro st h1 h2; exact ⟨h1, h2⟩
  | succ fuel ih =>
    intro st h1 h2
    rw [crawl]
    cases hq : st.queue.getLast? with
    | none => exact ⟨h1, h2⟩
    | some p =>
      rcases p with ⟨url, d⟩
      dsimp only
      by_cases hd : depthBound < d
      · rw [if_pos hd]
        exact ih _ h1 h2
      · rw [if_neg hd]
        by_cases hseen : ident url ∈ st.seen
        · rw [if_pos hseen]
          exact ih _ h1 h2
        · rw [if_neg hseen]
          cases hf : fetch url with
          | none =>
            exact ih _ h1 (fun x hx => List.mem_cons_of_mem _ (h2 x hx))
          | some links =>
            apply ih
            · apply List.Nodup.append h1 (by simp)
              intro a ha hb
              have : a = ident url := by simpa using hb
              subst this
              exact hseen (h2 _ ha)
            · intro x hx
              rcases List.mem_append.mp hx with hx | hx
              · exact List.mem_cons_of_mem _ (h2 x hx)
              · have : x = ident url := by simpa using hx
                subst this
                exact List.mem_cons_self _ _

/-- Claim C8: a crawl run indexes each canonical document identity at most
once, whatever the fetch results, canonicalization, depth bound, seed
list, and run length (the indexed list never contains a duplicate
identity); in particular a seed file listing the same URL twice — here
`["u", "u"]` with a link-free page — indexes that document exactly
once. -/
theorem crawl_indexes_once :
    (∀ (fetch : String → Option (List String)) (ident : String → Nat)
       (depthBound fuel : Nat) (seeds : List String),
       (crawl fetch ident depthBound fuel (initialCrawlState seeds)).indexed.Nodup) ∧
    (crawl (fun _ => some []) (fun _ => 7) 0 3
        (initialCrawlState ["u", "u"])).indexed = [7] := by
  constructor
  · intro fetch ident depthBound fuel seeds
    exact (crawl_invariant fetch ident depthBound fuel (initialCrawlState seeds)
      List.nodup_nil (by intro x hx; cases hx)).1
  · rfl

/-! ## PageRank engine (`Lab4/pagerank.py`)

The link graph is a Python dict `page_id -> list of target ids`, embedded
as an association list (key uniqueness, guaranteed by the dict, appears as
a `Nodup` hypothesis where the proof needs it).  Float scores become
rationals.  `page_rank` mirrors the source: the page set is keys plus
targets; `outbound_count` substitutes the total page count for a zero
out-degree; each iteration adds `(1-d)`, one inbound contribution per
occurrence of an incoming edge, and one contribution per page whose
(substituted) outbound count equals the page count. -/

def damping : ℚ := 0.85

/-- `pages = set(links.keys()) ∪ all targets`. -/
def pagesList (links : List (Nat × List Nat)) : List Nat :=
  (links.map Prod.fst ++ (links.map Prod.snd).flatten).dedup

/-- `len(pages)`. -/
def numPages (links : List (Nat × List Nat)) : Nat := (pagesList links).length

/-- `len(links.get(page, []))`: the raw out-degree. -/
def outRaw (links : List (Nat × List Nat)) (p : Nat) : Nat :=
  ((links.lookup p).getD []).length

/-- `outbound_count[page]` after the source's substitution: a page with no
outbound links is given `len(pages)` so that its mass spreads
everywhere. -/
def outCount (links : List (Nat × List Nat)) (p : Nat) : Nat :=
  if outRaw links p = 0 then numPages links else outRaw links p

/-- `inbound_links[page]`: one occurrence of the source per matching edge,
in dict order (built by appending `source` for every `target == page`). -/
def inboundList (links : List (Nat × List Nat)) (page : Nat) : List Nat :=
  (links.map (fun s => List.replicate (s.2.count page) s.1)).flatten

/-- One iteration of the source loop: for each page,
`(1-d) + Σ d·PR(T)/outbound_count[T]` over inbound occurrences `T`, plus
`d·PR(D)/len(pages)` for every page `D ≠ page` whose `outbound_count`
equals `len(pages)`. -/
def prStep (links : List (Nat × List Nat)) (pr : Nat → ℚ) : Nat → ℚ := fun page =>
  (1 - damping)
  + ((inboundList links page).map
      (fun t => damping * (pr t / (outCount links t : ℚ)))).sum
  + (((pagesList links).filter
        (fun p => outCount links p == numPages links && p != page)).map
      (fun p => damping * (pr p / (numPages links : ℚ)))).sum

/-- `page_rank(links, num_iterations, initial_pr)`: every page starts at
`initial_pr` and the update runs exactly `num_iterations` times, with no
convergence check. -/
def page_rank (links : List (Nat × List Nat)) (num_iterations : Nat) (initial_pr : ℚ) :
    Nat → ℚ :=
  (prStep links)^[num_iterations] (fun _ => initial_pr)

/-- The claim's formula, verbatim: dangling means *exactly* zero outbound
edges, inbound contributions divide by the raw out-degree, and the
damping factor multiplies the whole bracket. -/
def specStep (links : List (Nat × List Nat)) (pr : Nat → ℚ) : Nat → ℚ := fun A =>
  (1 - damping) + damping *
    ( ((inboundList links A).map (fun t => pr t / (outRaw links t : ℚ))).sum
    + (((pagesList links).filter (fun p => outRaw links p == 0 && p != A)).map
        (fun p => pr p / (numPages links : ℚ))).sum )

/-- The claim's PageRank: initial score 1.0, iterated `n` times. -/
def specPageRank (links : List (Nat × List Nat)) (n : Nat) : Nat → ℚ :=
  (specStep links)^[n] (fun _ => 1)

/-- The amended formula: a node is treated as dangling exactly when its
out-degree is zero *or equals the total page count* (the source infers
dangling from `outbound_count[p] == len(pages)` after the zero-out-degree
substitution, so a page that genuinely links to `N` pages is also treated
as dangling). -/
def specStepAmended (links : List (Nat × List Nat)) (pr : Nat → ℚ) : Nat → ℚ := fun A =>
  (1 - damping) + damping *
    ( ((inboundList links A).map (fun t => pr t / (outRaw links t : ℚ))).sum
    + (((pagesList links).filter
          (fun p => (outRaw links p == 0 || outRaw links p == numPages links) && p != A)).map
        (fun p => pr p / (numPages links : ℚ))).sum )

def specPageRankAmended (links : List (Nat × List Nat)) (n : Nat) : Nat → ℚ :=
  (specStepAmended links)^[n] (fun _ => 1)

/-- Claim C1 counterexample: in `{1: [1, 2]}` page 1 has out-degree 2 =
total page count, so the code also treats it as dangling and page 2
receives its mass twice; after one iteration the code gives `PR(2) = 1`
while the claim's formula gives `0.575`. -/
theorem pagerank_counterexample :
    page_rank [(1, [1, 2])] 1 1 2 ≠ specPageRank [(1, [1, 2])] 1 2 := by
  have hcode : page_rank [(1, [1, 2])] 1 1 2 = 1 := by
    rw [page_rank, Function.iterate_one, prStep]
    have h1 : inboundList [(1, [1, 2])] 2 = [1] := by decide
    have h2 : ((pagesList [(1, [1, 2])]).filter
        (fun p => outCount [(1, [1, 2])] p == numPages [(1, [1, 2])] && p != 2)) = [1] := by
      decide
    have h3 : outCount [(1, [1, 2])] 1 = 2 := by decide
    have h5 : numPages [(1, [1, 2])] = 2 := by decide
    rw [h1, h2]
    simp only [List.map_cons, List.map_nil, h3, h5]
    norm_num [damping]
  have hspec : specPageRank [(1, [1, 2])] 1 2 = 23 / 40 := by
    rw [specPageRank, Function.iterate_one, specStep]
    have h1 : inboundList [(1, [1, 2])] 2 = [1] := by decide
    have h2 : ((pagesList [(1, [1, 2])]).filter
        (fun p => outRaw [(1, [1, 2])] p == 0 && p != 2)) = [] := by decide
    have h3 : outRaw [(1, [1, 2])] 1 = 2 := by decide
    have h5 : numPages [(1, [1, 2])] = 2 := by decide
    rw [h1, h2]
    simp only [List.map_cons, List.map_nil, h3, h5]
    norm_num [damping]
  rw [hcode, hspec]
  norm_num

theorem lookup_of_mem_nodup {β : Type} (l : List (Nat × β)) (k : Nat) (b : β)
    (hnd : (l.map Prod.fst).Nodup) (hmem : (k, b) ∈ l) : l.lookup k = some b := by
  induction l with
  | nil => cases hmem
  | cons a l ih =>
    rw [List.map_cons, List.nodup_cons] at hnd
    rcases List.mem_cons.mp hmem with h | h
    · subst h
      simp [List.lookup]
    · have hkey : a.1 ≠ k := by
        intro hk
        exact hnd.1 (List.mem_map.mpr ⟨(k, b), h, by simp [hk]⟩)
      have hb : (k == a.1) = false := by
        simpa using (Ne.symm hkey)
      rcases a with ⟨ak, ab⟩
      simp only at hb
      simp [List.lookup, hb, ih hnd.2 h]

theorem prStep_eq_amended (links : List (Nat × List Nat))
    (hnd : (links.map Prod.fst).Nodup) (pr : Nat → ℚ) (A : Nat) :
    prStep links pr A = specStepAmended links pr A := by
  have hout : ∀ t ∈ inboundList links A,
      damping * (pr t / (outCount links t : ℚ)) = damping * (pr t / (outRaw links t : ℚ)) := by
    intro t ht
    rcases List.mem_flatten.mp ht with ⟨l, hl, htl⟩
    rcases List.mem_map.mp hl with ⟨s, hs, rfl⟩
    rcases List.mem_replicate.mp htl with ⟨hcount, rfl⟩
    have hlk : links.lookup s.1 = some s.2 :=
      lookup_of_mem_nodup links s.1 s.2 hnd (by simpa using hs)
    have hraw : outRaw links s.1 = s.2.length := by
      rw [outRaw, hlk]
      rfl
    have hne : outRaw links s.1 ≠ 0 := by
      rw [hraw]
      intro h0
      rw [List.length_eq_zero] at h0
      rw [h0] at hcount
      simp at hcount
    rw [outCount, if_neg hne]
  have h1 : ((inboundList links A).map
        (fun t => damping * (pr t / (outCount links t : ℚ)))).sum
      = damping * ((inboundList links A).map (fun t => pr t / (outRaw links t : ℚ))).sum := by
    rw [List.map_congr_left hout]
    exact List.sum_map_mul_left _ _ _
  have h2 : (pagesList links).filter
        (fun p => outCount links p == numPages links && p != A)
      = (pagesList links).filter
        (fun p => (outRaw links p == 0 || outRaw links p == numPages links) && p != A) := by
    apply List.filter_congr
    intro p _
    by_cases h0 : outRaw links p = 0
    · simp [outCount, h0]
    · have hb : (outRaw links p == 0) = false := by simpa using h0
      simp [outCount, h0, hb]
  have h3 : (((pagesList links).filter
        (fun p => (outRaw links p == 0 || outRaw links p == numPages links) && p != A)).map
        (fun p => damping * (pr p / (numPages links : ℚ)))).sum
      = damping * (((pagesList links).filter
        (fun p => (outRaw links p == 0 || outRaw links p == numPages links) && p != A)).map
        (fun p => pr p / (numPages links : ℚ))).sum :=
    List.sum_map_mul_left _ _ _
  rw [prStep, specStepAmended, h1, h2, h3]
  ring

theorem page_rank_eq_amended_fun (links : List (Nat × List Nat))
    (hnd : (links.map Prod.fst).Nodup) :
    ∀ n, page_rank links n 1 = specPageRankAmended links n := by
  intro n
  induction n with
  | zero => rfl
  | succ n ih =>
    show (prStep links)^[n + 1] (fun _ => 1) = (specStepAmended links)^[n + 1] (fun _ => 1)
    rw [Function.iterate_succ_apply', Function.iterate_succ_apply']
    have ih' : (prStep links)^[n] (fun _ => (1 : ℚ)) = specPageRankAmended links n := ih
    rw [ih']
    funext A
    exact prStep_eq_amended links hnd _ A

/-- Claim C1 (amended): for every link graph with (dict-)unique keys, the
engine computes exactly the claimed iteration — damping 0.85, initial
score 1.0, `N` = all sources and targets, exactly the configured number of
iterations, no convergence check — except that a node counts as dangling
not only when its out-degree is zero but also when its out-degree equals
the total page count `N` (the source's `outbound_count == len(pages)`
substitution trick). -/
theorem pagerank_formula (links : List (Nat × List Nat))
    (hnd : (links.map Prod.fst).Nodup) (n A : Nat) :
    page_rank links n 1 A = specPageRankAmended links n A := by
  rw [page_rank_eq_amended_fun links hnd n]

theorem pagerank_formula_witness :
    ((([(1, [1, 2])] : List (Nat × List Nat)).map Prod.fst).Nodup) ∧
    page_rank [(1, [1, 2])] 2 1 2 = specPageRankAmended [(1, [1, 2])] 2 2 :=
  ⟨by decide, pagerank_formula [(1, [1, 2])] (by decide) 2 2⟩

/-- The engine's score dict over its page set (the dict returned by
`page_rank`, as `(page, score)` pairs). -/
def pageRankScores (links : List (Nat × List Nat)) (n : Nat) : List (Nat × ℚ) :=
  (pagesList links).map (fun p => (p, page_rank links n 1 p))

/-- `normalize_page_rank(scores)`: if the total is zero the dict is
returned unchanged, otherwise every score is divided by the total. -/
def normalize_page_rank (scores : List (Nat × ℚ)) : List (Nat × ℚ) :=
  if (scores.map Prod.snd).sum = 0 then scores
  else scores.map (fun s => (s.1, s.2 / (scores.map Prod.snd).sum))

/-- Claim C2 counterexample: on the empty graph the engine yields an empty
score map, normalization returns it unchanged, and the scores sum to 0,
not to 1.0 within 1e-5. -/
theorem normalize_sum_counterexample :
    ¬ |((normalize_page_rank (pageRankScores [] 20)).map Prod.snd).sum - 1|
        ≤ 1 / 100000 := by
  have h : pageRankScores [] 20 = [] := rfl
  rw [h]
  norm_num [normalize_page_rank]

theorem list_sum_div (l : List ℚ) (c : ℚ) :
    (l.map (fun x => x / c)).sum = l.sum / c := by
  induction l with
  | nil => simp
  | cons a l ih => simp [ih, add_div]

theorem page_rank_pos (links : List (Nat × List Nat)) :
    ∀ (n : Nat) (p : Nat), 0 < page_rank links n 1 p := by
  intro n
  induction n with
  | zero =>
    intro p
    norm_num [page_rank]
  | succ n ih =>
    intro p
    have hstep : page_rank links (n + 1) 1 p = prStep links (page_rank links n 1) p := by
      rw [page_rank, Function.iterate_succ_apply']
      rfl
    rw [hstep, prStep]
    have hdampnn : (0 : ℚ) ≤ damping := by norm_num [damping]
    have h1 : 0 ≤ ((inboundList links p).map
        (fun t => damping * (page_rank links n 1 t / (outCount links t : ℚ)))).sum := by
      apply List.sum_nonneg
      intro x hx
      rcases List.mem_map.mp hx with ⟨t, _, rfl⟩
      exact mul_nonneg hdampnn (div_nonneg (le_of_lt (ih t)) (Nat.cast_nonneg _))
    have h2 : 0 ≤ (((pagesList links).filter
          (fun q => outCount links q == numPages links && q != p)).map
        (fun q => damping * (page_rank links n 1 q / (numPages links : ℚ)))).sum := by
      apply List.sum_nonneg
      intro x hx
      rcases List.mem_map.mp hx with ⟨q, _, rfl⟩
      exact mul_nonneg hdampnn (div_nonneg (le_of_lt (ih q)) (Nat.cast_nonneg _))
    have hd : (0 : ℚ) < 1 - damping := by norm_num [damping]
    linarith

/-- Claim C2 (amended): for every graph with at least one document, the
normalized engine output sums to exactly 1 (in particular within 1e-5);
the restriction to non-empty graphs is forced because an empty graph
yields an empty score map summing to 0. -/
theorem normalized_sum_one (links : List (Nat × List Nat)) (n : Nat)
    (hne : pagesList links ≠ []) :
    ((normalize_page_rank (pageRankScores links n)).map Prod.snd).sum = 1 ∧
    |((normalize_page_rank (pageRankScores links n)).map Prod.snd).sum - 1|
      ≤ 1 / 100000 := by
  have hmap : (pageRankScores links n).map Prod.snd
      = (pagesList links).map (page_rank links n 1) := by
    rw [pageRankScores, List.map_map]
    rfl
  have hpos : 0 < ((pageRankScores links n).map Prod.snd).sum := by
    rw [hmap]
    apply List.sum_pos
    · intro x hx
      rcases List.mem_map.mp hx with ⟨p, _, rfl⟩
      exact page_rank_pos links n p
    · intro h
      exact hne (by simpa using h)
  have htot : ((pageRankScores links n).map Prod.snd).sum ≠ 0 := ne_of_gt hpos
  have hone : ((normalize_page_rank (pageRankScores links n)).map Prod.snd).sum = 1 := by
    rw [normalize_page_rank, if_neg htot]
    rw [List.map_map]
    have hcomp : ((pageRankScores links n).map
          (fun s => s.2 / ((pageRankScores links n).map Prod.snd).sum)).sum
        = (((pageRankScores links n).map Prod.snd).map
          (fun x => x / ((pageRankScores links n).map Prod.snd).sum)).sum := by
      rw [List.map_map]
      rfl
    calc ((pageRankScores links n).map
            (Prod.snd ∘ fun s => (s.1, s.2 / ((pageRankScores links n).map Prod.snd).sum))).sum
        = (((pageRankScores links n).map Prod.snd).map
            (fun x => x / ((pageRankScores links n).map Prod.snd).sum)).sum := hcomp
      _ = ((pageRankScores links n).map Prod.snd).sum
            / ((pageRankScores links n).map Prod.snd).sum := list_sum_div _ _
      _ = 1 := div_self htot
  refine ⟨hone, ?_⟩
  rw [hone]
  norm_num

theorem normalized_sum_one_witness :
    pagesList [(1, [2])] ≠ [] ∧
    ((normalize_page_rank (pageRankScores [(1, [2])] 20)).map Prod.snd).sum = 1 :=
  ⟨by decide, (normalized_sum_one [(1, [2])] 20 (by decide)).1⟩

/-! ## Advanced ranker (`Lab4/ranking.py`, class `AdvancedRanker`)

The SQLite store behind the ranker is embedded as row lists in table
order: `Lexicon` rows `(word_id, word)`, `DocumentIndex` rows
`(doc_id, url, title, page_rank)`, `InvertedIndex` rows
`(word_id, doc_id, font_size)`.  The `(word_id, doc_id)` primary key and
`doc_id` uniqueness appear as `Nodup` hypotheses where a proof needs
them; the join `DocumentIndex ⋈ InvertedIndex` on the unique key is the
corresponding document-table filter, in table order (the model's
retrieval order).  `math.log` stays an abstract `lg : ℚ → ℚ` applied to
the same argument on both sides. -/

structure DocRow where
  doc_id : Nat
  url : String
  title : String
  page_rank : ℚ
deriving DecidableEq

structure PostRow where
  word_id : Nat
  doc_id : Nat
  font_size : Int
deriving DecidableEq

structure SearchDb where
  lexicon : List (Nat × String)
  docs : List DocRow
  posts : List PostRow

/-- `SearchEngineDB.get_word_id`: `SELECT word_id FROM Lexicon WHERE word = ?`. -/
def get_word_id (db : SearchDb) (w : String) : Option Nat :=
  (db.lexicon.find? (fun r => r.2 == w)).map Prod.fst

/-- The ranker guards every lookup with Python truthiness
(`if not word_id`), so an identity of 0 — impossible under SQLite
AUTOINCREMENT, whose ids start at 1 — would be treated as unknown. -/
def wordIdOf (db : SearchDb) (w : String) : Option Nat :=
  match get_word_id db w with
  | none => none
  | some i => if i = 0 then none else some i

/-- `SELECT COUNT(*) FROM DocumentIndex`. -/
def total_docs (db : SearchDb) : Nat := db.docs.length

/-- `SELECT COUNT(DISTINCT doc_id) FROM InvertedIndex WHERE word_id = ?`. -/
def docFreq (db : SearchDb) (wid : Nat) : Nat :=
  (((db.posts.filter (fun p => p.word_id == wid)).map (fun p => p.doc_id)).dedup).length

/-- `AdvancedRanker._calculate_idf`: 0 for an unknown (or 0-id) word or a
zero document frequency, else `log((N + 1) / (df + 1))`. -/
def calculate_idf (lg : ℚ → ℚ) (db : SearchDb) (w : String) : ℚ :=
  match wordIdOf db w with
  | none => 0
  | some wid =>
    if docFreq db wid = 0 then 0
    else lg (((total_docs db : ℚ) + 1) / ((docFreq db wid : ℚ) + 1))

/-- `SELECT COUNT(*) FROM InvertedIndex WHERE doc_id = ?`: the number of
distinct indexed terms of the document (one row per term under the
primary key). -/
def uniqueTermsIn (db : SearchDb) (d : Nat) : Nat :=
  (db.posts.filter (fun p => p.doc_id == d)).length

/-- `AdvancedRanker._calculate_tf`: `1 / (total_words + 1)`, 0 when the
document has no rows. -/
def calculate_tf (db : SearchDb) (d : Nat) : ℚ :=
  if uniqueTermsIn db d = 0 then 0 else 1 / ((uniqueTermsIn db d : ℚ) + 1)

/-- `AdvancedRanker._get_font_size_score`: the posting's stored
`font_size` divided by 7 and capped above at 1 (`min(font_size/7.0, 1.0)`
— note: no lower cap), 0 when no posting row exists. -/
def font_size_score (db : SearchDb) (wid d : Nat) : ℚ :=
  match db.posts.find? (fun p => p.word_id == wid && p.doc_id == d) with
  | none => 0
  | some p => min ((p.font_size : ℚ) / 7) 1

/-- The posting weight the claim speaks about: the stored `font_size` of
the `(term, document)` posting (0 when absent). -/
def postWeight (db : SearchDb) (wid d : Nat) : Int :=
  ((db.posts.find? (fun p => p.word_id == wid && p.doc_id == d)).map
    (fun p => p.font_size)).getD 0

/-- Python `needle in hay` on character lists (contiguous substring). -/
def listSub : List Char → List Char → Bool
  | n, [] => n.isEmpty
  | n, c :: t => n.isPrefixOf (c :: t) || listSub n t

/-- Python `needle in hay` on strings. -/
def strIn (needle hay : String) : Bool := listSub needle.data hay.data

/-- `AdvancedRanker._check_title_match`: look the document row up by id,
treat a missing row or falsy (empty) title as no match, else test
`word.lower() in title.lower()`. -/
def check_title_match (db : SearchDb) (w : String) (d : Nat) : Bool :=
  match db.docs.find? (fun r => r.doc_id == d) with
  | none => false
  | some r => if r.title == "" then false else strIn (pyLower w) (pyLower r.title)

/-- The join of `rank_single_word`: every document with a posting for the
word, in document-table order. -/
def candidateDocs (db : SearchDb) (wid : Nat) : List DocRow :=
  db.docs.filter (fun r => db.posts.any (fun p => p.word_id == wid && p.doc_id == r.doc_id))

/-- Stable insertion into a descending-sorted list: the new element goes
after every element with a greater-or-equal key, like Python's stable
`list.sort(reverse=True)` keeps earlier elements first on ties. -/
def insertDesc {β : Type} (key : β → ℚ) (x : β) : List β → List β
  | [] => [x]
  | y :: ys => if key y < key x then x :: y :: ys else y :: insertDesc key x ys

/-- Stable descending sort by key (Python `sort(key=..., reverse=True)`). -/
def sortDesc {β : Type} (key : β → ℚ) (l : List β) : List β :=
  l.foldl (fun acc x => insertDesc key x acc) []

/-- `AdvancedRanker.rank_single_word`: unknown word gives `[]`; otherwise
every document containing the word is scored
`0.4·(tf·idf) + 0.3·min(page_rank/10, 1) + 0.2·titleMatch +
0.1·fontScore`, the list is stably sorted by combined score descending,
and truncated to `limit`. -/
def rank_single_word (lg : ℚ → ℚ) (db : SearchDb) (w : String) (limit : Nat) :
    List (String × String × ℚ × ℚ) :=
  match wordIdOf db w with
  | none => []
  | some wid =>
    (sortDesc (fun x => x.2.2.1) ((candidateDocs db wid).map (fun r =>
      (r.url, r.title,
        (0.4 : ℚ) * (calculate_tf db r.doc_id * calculate_idf lg db w)
          + (0.3 : ℚ) * min (r.page_rank / 10) 1
          + (0.2 : ℚ) * (if check_title_match db w r.doc_id then 1 else 0)
          + (0.1 : ℚ) * font_size_score db wid r.doc_id,
        r.page_rank)))).take limit

/-- Does the document with id `d` have a posting for word id `wid`? -/
def docHasId (db : SearchDb) (d : Nat) (wid : Nat) : Bool :=
  db.posts.any (fun p => p.word_id == wid && p.doc_id == d)

/-- `InvertedIndex` rows whose `word_id` is among the query's ids
(`WHERE word_id IN (...)`). -/
def postsMatching (db : SearchDb) (ids : List Nat) : List PostRow :=
  db.posts.filter (fun p => ids.contains p.word_id)

/-- The intersection query of `rank_multi_word`:
`GROUP BY doc_id HAVING COUNT(DISTINCT word_id) = len(word_ids)` over the
matching rows. -/
def interCandidates (db : SearchDb) (ids : List Nat) : List Nat :=
  (((postsMatching db ids).map (fun p => p.doc_id)).dedup).filter
    (fun d => ((((postsMatching db ids).filter (fun p => p.doc_id == d)).map
        (fun p => p.word_id)).dedup).length == ids.length)

/-- The fallback union query: `SELECT DISTINCT doc_id` over matching rows. -/
def unionCandidates (db : SearchDb) (ids : List Nat) : List Nat :=
  ((postsMatching db ids).map (fun p => p.doc_id)).dedup

/-- The candidate document ids `rank_multi_word` goes on to score (the
scored list is later truncated to `limit`): a single-word query delegates
to `rank_single_word` (candidates = the join), otherwise the known
word ids are collected in query order (duplicates kept, Python-falsy id 0
dropped), and the intersection query is used unless it is empty, in which
case the union query is. -/
def rank_multi_word_ids (db : SearchDb) (words : List String) : List Nat :=
  match words with
  | [] => []
  | [w] =>
    match wordIdOf db w with
    | none => []
    | some wid => (candidateDocs db wid).map (fun r => r.doc_id)
  | _ :: _ :: _ =>
    let ids := words.filterMap (wordIdOf db)
    if ids.isEmpty then []
    else
      let inter := interCandidates db ids
      if inter.isEmpty then unionCandidates db ids else inter

/-- Does document row `r` contain query term `w`, in the claim's sense:
`w` has an assigned identity and `r` has a posting for it. -/
def docContains (db : SearchDb) (r : DocRow) (w : String) : Bool :=
  match get_word_id db w with
  | none => false
  | some wid => docHasId db r.doc_id wid

/-- The candidate set exactly as the claim words it: empty when no query
term is known; else the documents containing *all* query terms when at
least one such document exists, otherwise the documents containing *any*
query term. -/
def claimCandidatesMulti (db : SearchDb) (words : List String) : List Nat :=
  if words.all (fun w => (get_word_id db w).isNone) then []
  else if db.docs.any (fun r => words.all (fun w => docContains db r w)) then
    (db.docs.filter (fun r => words.all (fun w => docContains db r w))).map
      (fun r => r.doc_id)
  else
    (db.docs.filter (fun r => words.any (fun w => docContains db r w))).map
      (fun r => r.doc_id)

/-- Claim C3 counterexample: terms "a", "b" are known, "c" is not;
document 1 contains a and b, document 2 only a.  No document contains all
three query terms, so the claim's fallback selects both documents, but the
code intersects over the *known* ids only, finds document 1, and never
falls back — document 2 is not a candidate. -/
theorem multi_candidates_counterexample :
    2 ∈ claimCandidatesMulti
        ⟨[(1, "a"), (2, "b")], [⟨1, "u1", "", 1⟩, ⟨2, "u2", "", 1⟩],
         [⟨1, 1, 0⟩, ⟨2, 1, 0⟩, ⟨1, 2, 0⟩]⟩ ["a", "b", "c"] ∧
    2 ∉ rank_multi_word_ids
        ⟨[(1, "a"), (2, "b")], [⟨1, "u1", "", 1⟩, ⟨2, "u2", "", 1⟩],
         [⟨1, 1, 0⟩, ⟨2, 1, 0⟩, ⟨1, 2, 0⟩]⟩ ["a", "b", "c"] := by
  decide

/-- The amended candidate set: work with the *known* identities of the
query terms, in query order with duplicates kept (the Python-falsy
identity 0, impossible under AUTOINCREMENT, counts as unknown); empty
when none is known; the documents containing every known term when the
known identities are pairwise distinct and at least one such document
exists; otherwise the documents containing at least one known term. -/
def claimCandidatesMultiAmended (db : SearchDb) (words : List String) : List Nat :=
  let ids := words.filterMap (wordIdOf db)
  if ids.isEmpty then []
  else if ids.Nodup ∧ ∃ r ∈ db.docs, ∀ wid ∈ ids, docHasId db r.doc_id wid = true then
    (db.docs.filter (fun r => ids.all (fun wid => docHasId db r.doc_id wid))).map
      (fun r => r.doc_id)
  else
    (db.docs.filter (fun r => ids.any (fun wid => docHasId db r.doc_id wid))).map
      (fun r => r.doc_id)

theorem mem_unionCandidates (db : SearchDb) (ids : List Nat) (d : Nat) :
    d ∈ unionCandidates db ids
      ↔ ∃ p ∈ db.posts, p.word_id ∈ ids ∧ p.doc_id = d := by
  constructor
  · intro h
    rw [unionCandidates, List.mem_dedup] at h
    rcases List.mem_map.mp h with ⟨p, hp, rfl⟩
    rcases List.mem_filter.mp hp with ⟨hpp, hc⟩
    exact ⟨p, hpp, by simpa using hc, rfl⟩
  · rintro ⟨p, hp, hw, rfl⟩
    rw [unionCandidates, List.mem_dedup]
    exact List.mem_map.mpr ⟨p, List.mem_filter.mpr ⟨hp, by simpa using hw⟩, rfl⟩

theorem docHasId_iff (db : SearchDb) (d wid : Nat) :
    docHasId db d wid = true ↔ ∃ p ∈ db.posts, p.word_id = wid ∧ p.doc_id = d := by
  rw [docHasId, List.any_eq_true]
  constructor
  · rintro ⟨p, hp, hc⟩
    have h := hc
    simp only [Bool.and_eq_true, beq_iff_eq] at h
    exact ⟨p, hp, h.1, h.2⟩
  · rintro ⟨p, hp, hw, hd⟩
    exact ⟨p, hp, by simp [hw, hd]⟩

theorem interCount_iff (db : SearchDb) (ids : List Nat) (d : Nat) :
    ((((postsMatching db ids).filter (fun p => p.doc_id == d)).map
        (fun p => p.word_id)).dedup).length = ids.length
    ↔ (ids.Nodup ∧ ∀ wid ∈ ids, docHasId db d wid = true) := by
  set S := (((postsMatching db ids).filter (fun p => p.doc_id == d)).map
      (fun p => p.word_id)).dedup with hS
  have hSnd : S.Nodup := List.nodup_dedup _
  have hmemS : ∀ wid, wid ∈ S ↔ (wid ∈ ids ∧ docHasId db d wid = true) := by
    intro wid
    rw [hS, List.mem_dedup]
    constructor
    · intro h
      rcases List.mem_map.mp h with ⟨p, hp, rfl⟩
      rcases List.mem_filter.mp hp with ⟨hpm, hpd⟩
      rcases List.mem_filter.mp hpm with ⟨hpp, hpc⟩
      refine ⟨by simpa using hpc, ?_⟩
      exact (docHasId_iff db d p.word_id).mpr ⟨p, hpp, rfl, by simpa using hpd⟩
    · rintro ⟨hwid, hhas⟩
      rcases (docHasId_iff db d wid).mp hhas with ⟨p, hp, hw, hd⟩
      refine List.mem_map.mpr ⟨p, ?_, hw⟩
      refine List.mem_filter.mpr ⟨List.mem_filter.mpr ⟨hp, ?_⟩, by simp [hd]⟩
      simp [hw, hwid]
  have hSsub : S ⊆ ids := fun x hx => ((hmemS x).mp hx).1
  constructor
  · intro hlen
    have hsp : S.Subperm ids.dedup :=
      List.subperm_of_subset hSnd (fun x hx => List.mem_dedup.mpr (hSsub hx))
    have h1 : S.length ≤ ids.dedup.length := hsp.length_le
    have h2 : ids.dedup.length ≤ ids.length := (List.dedup_sublist ids).length_le
    have hdl : ids.dedup.length = ids.length := by omega
    have hded : ids.dedup = ids := (List.dedup_sublist ids).eq_of_length hdl
    have hnd : ids.Nodup := List.dedup_eq_self.mp hded
    have hperm : S.Perm ids.dedup := hsp.perm_of_length_le (by omega)
    refine ⟨hnd, fun wid hwid => ?_⟩
    have : wid ∈ S := (hperm.mem_iff).mpr (List.mem_dedup.mpr hwid)
    exact ((hmemS wid).mp this).2
  · rintro ⟨hnd, hall⟩
    have hsub2 : ids ⊆ S := fun wid hwid => (hmemS wid).mpr ⟨hwid, hall wid hwid⟩
    have hsp1 : S.Subperm ids := List.subperm_of_subset hSnd hSsub
    have hsp2 : ids.Subperm S := List.subperm_of_subset hnd hsub2
    exact (hsp1.antisymm hsp2).length_eq

theorem mem_interCandidates (db : SearchDb) (ids : List Nat) (d : Nat) :
    d ∈ interCandidates db ids
      ↔ ((∃ p ∈ db.posts, p.word_id ∈ ids ∧ p.doc_id = d) ∧
         ids.Nodup ∧ ∀ wid ∈ ids, docHasId db d wid = true) := by
  rw [interCandidates, List.mem_filter]
  have h1 : d ∈ ((postsMatching db ids).map (fun p => p.doc_id)).dedup
      ↔ ∃ p ∈ db.posts, p.word_id ∈ ids ∧ p.doc_id = d :=
    mem_unionCandidates db ids d
  have h2 : (((((postsMatching db ids).filter (fun p => p.doc_id == d)).map
        (fun p => p.word_id)).dedup).length == ids.length) = true
      ↔ (ids.Nodup ∧ ∀ wid ∈ ids, docHasId db d wid = true) := by
    rw [beq_iff_eq]
    exact interCount_iff db ids d
  rw [h1, h2]

theorem mem_filter_map_doc (db : SearchDb) (pred : DocRow → Bool) (d : Nat) :
    d ∈ (db.docs.filter pred).map (fun r => r.doc_id)
      ↔ ∃ r ∈ db.docs, r.doc_id = d ∧ pred r = true := by
  constructor
  · intro h
    rcases List.mem_map.mp h with ⟨r, hr, rfl⟩
    rcases List.mem_filter.mp hr with ⟨hrd, hrp⟩
    exact ⟨r, hrd, rfl, hrp⟩
  · rintro ⟨r, hr, rfl, hp⟩
    exact List.mem_map.mpr ⟨r, List.mem_filter.mpr ⟨hr, hp⟩, rfl⟩

/-- Claim C3 (amended): for every store (with referentially intact
postings) and non-empty query, the candidate set is computed from the
*known* query-term identities (query order, duplicates kept): empty when
none is known; the documents containing every known term when the known
identities are pairwise distinct and at least one such document exists;
otherwise the documents containing at least one known term.  (With
duplicate known identities the intersection query can never be satisfied,
and an unknown term no longer forces the fallback.) -/
theorem multi_word_candidate_set (db : SearchDb) (words : List String)
    (hne : words ≠ [])
    (hfk : ∀ p ∈ db.posts, ∃ r ∈ db.docs, r.doc_id = p.doc_id) :
    ∀ d, d ∈ rank_multi_word_ids db words
      ↔ d ∈ claimCandidatesMultiAmended db words := by
  intro d
  match words with
  | [] => exact absurd rfl hne
  | [w] =>
    simp only [rank_multi_word_ids, claimCandidatesMultiAmended]
    cases hwid : wordIdOf db w with
    | none => simp [hwid]
    | some wid =>
      have hids : [w].filterMap (wordIdOf db) = [wid] := by
        simp [hwid]
      rw [hids]
      have hlist : (db.docs.filter (fun r => [wid].all (fun i => docHasId db r.doc_id i)))
          = db.docs.filter (fun r => [wid].any (fun i => docHasId db r.doc_id i)) := by
        apply List.filter_congr
        intro r _
        simp
      have hcode : d ∈ (candidateDocs db wid).map (fun r => r.doc_id)
          ↔ ∃ r ∈ db.docs, r.doc_id = d ∧ docHasId db r.doc_id wid = true :=
        mem_filter_map_doc db (fun r => docHasId db r.doc_id wid) d
      by_cases hcond : [wid].Nodup ∧
          ∃ r ∈ db.docs, ∀ i ∈ [wid], docHasId db r.doc_id i = true
      · rw [if_neg (by simp), if_pos hcond]
        rw [hcode, mem_filter_map_doc]
        constructor
        · rintro ⟨r, hr, rfl, hp⟩
          exact ⟨r, hr, rfl, by simpa using hp⟩
        · rintro ⟨r, hr, rfl, hp⟩
          exact ⟨r, hr, rfl, by simpa using hp⟩
      · rw [if_neg (by simp), if_neg hcond]
        rw [hcode, mem_filter_map_doc]
        constructor
        · rintro ⟨r, hr, rfl, hp⟩
          exact ⟨r, hr, rfl, by simpa using hp⟩
        · rintro ⟨r, hr, rfl, hp⟩
          exact ⟨r, hr, rfl, by simpa using hp⟩
  | w1 :: w2 :: ws =>
    simp only [rank_multi_word_ids, claimCandidatesMultiAmended]
    by_cases hemp : ((w1 :: w2 :: ws).filterMap (wordIdOf db)).isEmpty
    · rw [if_pos hemp, if_pos hemp]
    · rw [if_neg hemp, if_neg hemp]
      have hids_ne : (w1 :: w2 :: ws).filterMap (wordIdOf db) ≠ [] := by
        intro h
        exact hemp (by simp [h])
      set ids := (w1 :: w2 :: ws).filterMap (wordIdOf db) with hidsdef
      by_cases hcond : ids.Nodup ∧
          ∃ r ∈ db.docs, ∀ wid ∈ ids, docHasId db r.doc_id wid = true
      · have hinter_ne : interCandidates db ids ≠ [] := by
          rcases hcond with ⟨hnd, r, hr, hall⟩
          rcases List.exists_mem_of_ne_nil ids hids_ne with ⟨wid0, hw0⟩
          rcases (docHasId_iff db r.doc_id wid0).mp (hall wid0 hw0) with ⟨p, hp, hpw, hpd⟩
          intro hnil
          have hmem : r.doc_id ∈ interCandidates db ids :=
            (mem_interCandidates db ids r.doc_id).mpr
              ⟨⟨p, hp, by rw [hpw]; exact hw0, hpd⟩, hnd, hall⟩
          rw [hnil] at hmem
          cases hmem
        have hne2 : (interCandidates db ids).isEmpty = false := by
          rcases h : (interCandidates db ids).isEmpty with _ | _
          · rfl
          · exact absurd (List.isEmpty_iff.mp h) hinter_ne
        rw [hne2, if_neg (by simp), if_pos hcond]
        rw [mem_interCandidates, mem_filter_map_doc]
        constructor
        · rintro ⟨⟨p, hp, hpw, hpd⟩, hnd, hall⟩
          rcases hfk p hp with ⟨r, hr, hrd⟩
          refine ⟨r, hr, by rw [hrd, hpd], ?_⟩
          rw [List.all_eq_true]
          intro wid hwid
          rw [hrd, hpd]
          exact hall wid hwid
        · rintro ⟨r, hr, rfl, hall⟩
          rw [List.all_eq_true] at hall
          rcases List.exists_mem_of_ne_nil ids hids_ne with ⟨wid0, hw0⟩
          rcases (docHasId_iff db r.doc_id wid0).mp (hall wid0 hw0) with ⟨p, hp, hpw, hpd⟩
          exact ⟨⟨p, hp, by rw [hpw]; exact hw0, hpd⟩, hcond.1, hall⟩
      · have hinter_nil : interCandidates db ids = [] := by
          by_contra hnn
          rcases List.exists_mem_of_ne_nil _ hnn with ⟨d0, hd0⟩
          rcases (mem_interCandidates db ids d0).mp hd0 with ⟨⟨p, hp, hpw, hpd⟩, hnd, hall⟩
          rcases hfk p hp with ⟨r, hr, hrd⟩
          exact hcond ⟨hnd, r, hr, fun wid hwid => by rw [hrd, hpd]; exact hall wid hwid⟩
        have hne2 : (interCandidates db ids).isEmpty = true := by
          rw [hinter_nil]
          rfl
        rw [hne2, if_pos rfl, if_neg hcond]
        rw [mem_unionCandidates, mem_filter_map_doc]
        constructor
        · rintro ⟨p, hp, hpw, hpd⟩
          rcases hfk p hp with ⟨r, hr, hrd⟩
          refine ⟨r, hr, by rw [hrd, hpd], ?_⟩
          rw [List.any_eq_true]
          refine ⟨p.word_id, hpw, (docHasId_iff db r.doc_id p.word_id).mpr ⟨p, hp, rfl, hrd.symm⟩⟩
        · rintro ⟨r, hr, rfl, hany⟩
          rw [List.any_eq_true] at hany
          rcases hany with ⟨wid, hwid, hhas⟩
          rcases (docHasId_iff db r.doc_id wid).mp hhas with ⟨p, hp, hpw, hpd⟩
          exact ⟨p, hp, by rw [hpw]; exact hwid, hpd⟩

theorem multi_word_candidate_set_witness :
    (["a", "x"] ≠ ([] : List String)) ∧
    (∀ p ∈ (⟨[(1, "a")], [⟨1, "u", "", 1⟩], [⟨1, 1, 0⟩]⟩ : SearchDb).posts,
      ∃ r ∈ (⟨[(1, "a")], [⟨1, "u", "", 1⟩], [⟨1, 1, 0⟩]⟩ : SearchDb).docs,
        r.doc_id = p.doc_id) ∧
    ∀ d, d ∈ rank_multi_word_ids
        (⟨[(1, "a")], [⟨1, "u", "", 1⟩], [⟨1, 1, 0⟩]⟩ : SearchDb) ["a", "x"]
      ↔ d ∈ claimCandidatesMultiAmended
        (⟨[(1, "a")], [⟨1, "u", "", 1⟩], [⟨1, 1, 0⟩]⟩ : SearchDb) ["a", "x"] :=
  ⟨by decide, by decide,
   multi_word_candidate_set
     (⟨[(1, "a")], [⟨1, "u", "", 1⟩], [⟨1, 1, 0⟩]⟩ : SearchDb) ["a", "x"]
     (by decide) (by decide)⟩

theorem mem_insertDesc {β : Type} (key : β → ℚ) (x : β) (l : List β) (z : β) :
    z ∈ insertDesc key x l ↔ z = x ∨ z ∈ l := by
  induction l with
  | nil => simp [insertDesc]
  | cons y ys ih =>
    rw [insertDesc]
    by_cases h : key y < key x
    · simp [h]
    · rw [if_neg h]
      rw [List.mem_cons, ih, List.mem_cons]
      tauto

theorem pairwise_insertDesc {β : Type} (key : β → ℚ) (x : β) (l : List β)
    (h : l.Pairwise (fun a b => key b ≤ key a)) :
    (insertDesc key x l).Pairwise (fun a b => key b ≤ key a) := by
  induction l with
  | nil => simp [insertDesc]
  | cons y ys ih =>
    rw [List.pairwise_cons] at h
    rw [insertDesc]
    by_cases hlt : key y < key x
    · rw [if_pos hlt, List.pairwise_cons]
      constructor
      · intro z hz
        rcases List.mem_cons.mp hz with rfl | hz
        · exact le_of_lt hlt
        · exact le_trans (h.1 z hz) (le_of_lt hlt)
      · exact List.pairwise_cons.mpr h
    · rw [if_neg hlt, List.pairwise_cons]
      constructor
      · intro z hz
        rcases (mem_insertDesc key x ys z).mp hz with rfl | hz
        · exact not_lt.mp hlt
        · exact h.1 z hz
      · exact ih h.2

theorem pairwise_sortDesc {β : Type} (key : β → ℚ) (l : List β) :
    (sortDesc key l).Pairwise (fun a b => key b ≤ key a) := by
  suffices h : ∀ acc : List β, acc.Pairwise (fun a b => key b ≤ key a) →
      (l.foldl (fun acc x => insertDesc key x acc) acc).Pairwise
        (fun a b => key b ≤ key a) by
    exact h [] (by simp)
  induction l with
  | nil =>
    intro acc hacc
    exact hacc
  | cons a l ih =>
    intro acc hacc
    exact ih _ (pairwise_insertDesc key a acc hacc)

theorem find?_docRow (l : List DocRow) (r : DocRow)
    (hnd : (l.map (fun x => x.doc_id)).Nodup) (hr : r ∈ l) :
    l.find? (fun x => x.doc_id == r.doc_id) = some r := by
  induction l with
  | nil => cases hr
  | cons a l ih =>
    rw [List.map_cons, List.nodup_cons] at hnd
    rcases List.mem_cons.mp hr with h | h
    · subst h
      simp [List.find?_cons]
    · have hkey : a.doc_id ≠ r.doc_id := by
        intro hk
        exact hnd.1 (List.mem_map.mpr ⟨r, h, hk.symm⟩)
      have hb : (a.doc_id == r.doc_id) = false := by simpa using hkey
      simp [List.find?_cons, hb, ih hnd.2 h]

/-- The claim's single-term scoring, verbatim: for each document
containing the term, `0.4·(tf·idf) + 0.3·min(importance/10, 1) +
0.2·titleMatch + 0.1·emphasis` with `idf = lg((N+1)/(df+1))`,
`tf = 1/(uniqueTermsInDoc+1)`, `titleMatch` 1 exactly when the term is a
substring of the title, `emphasis` the posting weight over the maximum
attainable weight clamped to `[0, 1]`; stably sorted by score
descending. -/
def rank_single_word_spec (lg : ℚ → ℚ) (db : SearchDb) (w : String) (limit : Nat) :
    List (String × String × ℚ × ℚ) :=
  match get_word_id db w with
  | none => []
  | some wid =>
    (sortDesc (fun x => x.2.2.1) ((candidateDocs db wid).map (fun r =>
      (r.url, r.title,
        (0.4 : ℚ) * ((1 / ((uniqueTermsIn db r.doc_id : ℚ) + 1))
            * lg (((total_docs db : ℚ) + 1) / ((docFreq db wid : ℚ) + 1)))
          + (0.3 : ℚ) * min (r.page_rank / 10) 1
          + (0.2 : ℚ) * (if strIn w r.title then 1 else 0)
          + (0.1 : ℚ) * max 0 (min ((postWeight db wid r.doc_id : ℚ) / 7) 1),
        r.page_rank)))).take limit

/-- The claim's scoring as the code actually computes it: the title match
is case-insensitive (`word.lower() in title.lower()`) and skipped for a
falsy (empty) title, and the emphasis weight `min(weight/7, 1)` is capped
above at 1 but not clamped below at 0. -/
def rank_single_word_claim (lg : ℚ → ℚ) (db : SearchDb) (w : String) (limit : Nat) :
    List (String × String × ℚ × ℚ) :=
  match wordIdOf db w with
  | none => []
  | some wid =>
    (sortDesc (fun x => x.2.2.1) ((candidateDocs db wid).map (fun r =>
      (r.url, r.title,
        (0.4 : ℚ) * ((1 / ((uniqueTermsIn db r.doc_id : ℚ) + 1))
            * lg (((total_docs db : ℚ) + 1) / ((docFreq db wid : ℚ) + 1)))
          + (0.3 : ℚ) * min (r.page_rank / 10) 1
          + (0.2 : ℚ) * (if r.title != "" && strIn (pyLower w) (pyLower r.title)
              then 1 else 0)
          + (0.1 : ℚ) * min ((postWeight db wid r.doc_id : ℚ) / 7) 1,
        r.page_rank)))).take limit

/-- A one-term, one-document store whose term text is upper-case and whose
document title contains the term only after lowercasing. -/
def exampleDb : SearchDb :=
  ⟨[(1, "A")], [⟨1, "u1", "xax", 1⟩], [⟨1, 1, 0⟩]⟩

/-- Claim C4 counterexample: in `exampleDb` the stored term text is `"A"`
and the title `"xax"`.  The claim's title indicator ("the term is a
substring of the title") is 0, but the code lowercases both sides and
finds `"a"` in `"xax"`, so the code's combined score carries an extra
0.2 — the two scoring rules produce different result lists. -/
theorem single_word_counterexample :
    rank_single_word (fun _ => 0) exampleDb "A" 10
      ≠ rank_single_word_spec (fun _ => 0) exampleDb "A" 10 := by
  have hw : wordIdOf exampleDb "A" = some 1 := by decide
  have hg : get_word_id exampleDb "A" = some 1 := by decide
  have hcand : candidateDocs exampleDb 1 = [⟨1, "u1", "xax", 1⟩] := by decide
  have huniq : uniqueTermsIn exampleDb 1 = 1 := by decide
  have htf : calculate_tf exampleDb 1 = 1 / 2 := by
    rw [calculate_tf, huniq]
    norm_num
  have hidf : calculate_idf (fun _ => (0 : ℚ)) exampleDb "A" = 0 := by
    rw [calculate_idf, hw]
    simp
  have htitle : check_title_match exampleDb "A" 1 = true := by decide
  have hfind : exampleDb.posts.find? (fun p => p.word_id == 1 && p.doc_id == 1)
      = some ⟨1, 1, 0⟩ := by decide
  have hfont : font_size_score exampleDb 1 1 = 0 := by
    rw [font_size_score, hfind]
    norm_num
  have hpw : postWeight exampleDb 1 1 = 0 := by decide
  have hsub : strIn "A" "xax" = false := by decide
  have hdf : docFreq exampleDb 1 = 1 := by decide
  have hN : total_docs exampleDb = 1 := by decide
  have hcode : rank_single_word (fun _ => 0) exampleDb "A" 10
      = [("u1", "xax", 23 / 100, 1)] := by
    rw [rank_single_word, hw]
    dsimp only
    rw [hcand]
    simp only [List.map_cons, List.map_nil]
    rw [htf, hidf, htitle, hfont]
    norm_num [sortDesc, insertDesc, min_def]
  have hspec : rank_single_word_spec (fun _ => 0) exampleDb "A" 10
      = [("u1", "xax", 3 / 100, 1)] := by
    rw [rank_single_word_spec, hg]
    dsimp only
    rw [hcand]
    simp only [List.map_cons, List.map_nil]
    rw [huniq, hsub, hpw]
    norm_num [sortDesc, insertDesc, min_def, max_def]
  rw [hcode, hspec]
  intro heq
  simp only [List.cons.injEq, Prod.mk.injEq] at heq
  have := heq.1.2.2.1
  norm_num at this

/-- Claim C4 (amended): for every store with unique document ids and every
known query term, the code's result equals the claim's weighted formula
`0.4·(tf·idf) + 0.3·min(importance/10, 1) + 0.2·titleMatch +
0.1·emphasis` — with `titleMatch` being the *case-insensitive* substring
test on a non-empty title, and `emphasis` `min(weight/7, 1)` capped above
only — stably sorted by combined score descending (the sort is the shared
stable descending insertion sort, and the result is pairwise sorted). -/
theorem single_word_scoring (lg : ℚ → ℚ) (db : SearchDb) (w : String) (limit : Nat)
    (wid : Nat) (hw : wordIdOf db w = some wid)
    (hdocs : (db.docs.map (fun r => r.doc_id)).Nodup) :
    rank_single_word lg db w limit = rank_single_word_claim lg db w limit ∧
    (rank_single_word lg db w limit).Pairwise (fun a b => b.2.2.1 ≤ a.2.2.1) := by
  have hmaps : ∀ r ∈ candidateDocs db wid,
      (r.url, r.title,
        (0.4 : ℚ) * (calculate_tf db r.doc_id * calculate_idf lg db w)
          + (0.3 : ℚ) * min (r.page_rank / 10) 1
          + (0.2 : ℚ) * (if check_title_match db w r.doc_id then 1 else 0)
          + (0.1 : ℚ) * font_size_score db wid r.doc_id,
        r.page_rank)
      = (r.url, r.title,
        (0.4 : ℚ) * ((1 / ((uniqueTermsIn db r.doc_id : ℚ) + 1))
            * lg (((total_docs db : ℚ) + 1) / ((docFreq db wid : ℚ) + 1)))
          + (0.3 : ℚ) * min (r.page_rank / 10) 1
          + (0.2 : ℚ) * (if r.title != "" && strIn (pyLower w) (pyLower r.title)
              then 1 else 0)
          + (0.1 : ℚ) * min ((postWeight db wid r.doc_id : ℚ) / 7) 1,
        r.page_rank) := by
    intro r hr
    rcases List.mem_filter.mp hr with ⟨hrdocs, hrany⟩
    rcases List.any_eq_true.mp hrany with ⟨p, hp, hpw⟩
    have hpw' : p.word_id = wid ∧ p.doc_id = r.doc_id := by
      simpa using hpw
    have huniq : uniqueTermsIn db r.doc_id ≠ 0 := by
      rw [uniqueTermsIn]
      have hpmem : p ∈ db.posts.filter (fun q => q.doc_id == r.doc_id) :=
        List.mem_filter.mpr ⟨hp, by simp [hpw'.2]⟩
      intro h0
      rw [List.length_eq_zero] at h0
      rw [h0] at hpmem
      cases hpmem
    have hdf : docFreq db wid ≠ 0 := by
      rw [docFreq]
      have hpmem : p.doc_id ∈ ((db.posts.filter (fun q => q.word_id == wid)).map
          (fun q => q.doc_id)).dedup := by
        rw [List.mem_dedup]
        exact List.mem_map.mpr ⟨p, List.mem_filter.mpr ⟨hp, by simp [hpw'.1]⟩, rfl⟩
      intro h0
      rw [List.length_eq_zero] at h0
      rw [h0] at hpmem
      cases hpmem
    have htf : calculate_tf db r.doc_id
        = 1 / ((uniqueTermsIn db r.doc_id : ℚ) + 1) := by
      rw [calculate_tf, if_neg huniq]
    have hidf : calculate_idf lg db w
        = lg (((total_docs db : ℚ) + 1) / ((docFreq db wid : ℚ) + 1)) := by
      rw [calculate_idf, hw]
      dsimp only
      rw [if_neg hdf]
    have htitle : check_title_match db w r.doc_id
        = (r.title != "" && strIn (pyLower w) (pyLower r.title)) := by
      rw [check_title_match, find?_docRow db.docs r hdocs hrdocs]
      dsimp only
      by_cases ht : r.title == ""
      · rw [if_pos ht]
        have ht' : (r.title == "") = true := ht
        simp [bne, ht']
      · have ht' : (r.title == "") = false := by
          simpa using ht
        rw [if_neg ht]
        simp [bne, ht']
    have hfont : font_size_score db wid r.doc_id
        = min ((postWeight db wid r.doc_id : ℚ) / 7) 1 := by
      rw [font_size_score, postWeight]
      cases hf : db.posts.find? (fun q => q.word_id == wid && q.doc_id == r.doc_id) with
      | none =>
        dsimp only
        norm_num
      | some q =>
        dsimp only
        rfl
    rw [htf, hidf, htitle, hfont]
  have hlists : (candidateDocs db wid).map (fun r =>
      (r.url, r.title,
        (0.4 : ℚ) * (calculate_tf db r.doc_id * calculate_idf lg db w)
          + (0.3 : ℚ) * min (r.page_rank / 10) 1
          + (0.2 : ℚ) * (if check_title_match db w r.doc_id then 1 else 0)
          + (0.1 : ℚ) * font_size_score db wid r.doc_id,
        r.page_rank))
      = (candidateDocs db wid).map (fun r =>
      (r.url, r.title,
        (0.4 : ℚ) * ((1 / ((uniqueTermsIn db r.doc_id : ℚ) + 1))
            * lg (((total_docs db : ℚ) + 1) / ((docFreq db wid : ℚ) + 1)))
          + (0.3 : ℚ) * min (r.page_rank / 10) 1
          + (0.2 : ℚ) * (if r.title != "" && strIn (pyLower w) (pyLower r.title)
              then 1 else 0)
          + (0.1 : ℚ) * min ((postWeight db wid r.doc_id : ℚ) / 7) 1,
        r.page_rank)) :=
    List.map_congr_left hmaps
  constructor
  · rw [rank_single_word, rank_single_word_claim, hw]
    dsimp only
    rw [hlists]
  · rw [rank_single_word, hw]
    dsimp only
    exact (pairwise_sortDesc _ _).sublist (List.take_sublist _ _)

theorem single_word_scoring_witness :
    wordIdOf exampleDb "A" = some 1 ∧
    ((exampleDb.docs.map (fun r => r.doc_id)).Nodup) ∧
    rank_single_word (fun _ => 0) exampleDb "A" 10
      = rank_single_word_claim (fun _ => 0) exampleDb "A" 10 :=
  ⟨by decide, by decide,
   (single_word_scoring (fun _ => 0) exampleDb "A" 10 1 (by decide) (by decide)).1⟩
end SearchCore
